/-
Verification of the permutation algebra, order analysis utilities and
preprocessing of the `vans` repository (Variational Order Inference).

Each section embeds the relevant functions of the source as Lean
definitions (pure rational / integer arithmetic replaces tensor
arithmetic; the batch dimension, which is mapped over pointwise, is
dropped) and proves the spec claims about them.
-/
import Mathlib

/-! # Permutation codec

`permutation_to_relative` converts an absolute permutation matrix into a
pairwise relative-position tensor with three relation classes; it is
computed with a single matrix multiply against a sign comparison matrix.
The decoder recovers absolute positions from the relative tensor by
taking the argmax over the class axis, subtracting one, keeping positive
entries, and summing over the row axis
(`inspect_order.py`, lines 574-576 and 324-325). -/

/-- Hard permutation matrix of the bijection `σ` from generation step to
absolute position: entry `(i, j)` is `1` exactly when step `i` is
assigned position `j`. -/
def permutationMatrix (n : ℕ) (σ : Equiv.Perm (Fin n)) : Fin n → Fin n → ℤ :=
  fun i j => if σ i = j then 1 else 0

/-- Sign comparison matrix: entry `(a, b)` is the sign of `b - a`. -/
def sortedRelative (n : ℕ) : Fin n → Fin n → ℤ :=
  fun a b => Int.sign ((b : ℤ) - (a : ℤ))

/-- Modelled from the spec: `voi.permutation_utils.permutation_to_relative`
is imported but absent from the sources.  Per the spec it encodes, for
every ordered pair of generation steps, whether the position assigned to
the first is before, equal to, or after the position assigned to the
second, as a one-hot vector over three relation classes, and is computed
by a single matrix multiply against a triangular comparison matrix.  The
class order (0 = the row step is placed after, 1 = same, 2 = the row
step is placed before) is fixed by the decoder recovery code in
`inspect_order.py` lines 574-576. -/
def permutation_to_relative (n : ℕ) (P : Fin n → Fin n → ℤ) :
    Fin n → Fin n → Fin 3 → ℤ :=
  fun i j k =>
    if (k : ℤ) = (∑ a, ∑ b, P i a * sortedRelative n a b * P j b) + 1 then 1 else 0

/-- Index of the first maximal entry of a vector over the three relation
classes, as `tf.argmax` computes it on the class axis. -/
def argmax3 (v : Fin 3 → ℤ) : ℤ :=
  if v 1 ≤ v 0 ∧ v 2 ≤ v 0 then 0 else if v 2 ≤ v 1 then 1 else 2

/-- Recovery of absolute positions from a relative-position tensor, as in
`inspect_order.py` lines 574-576: argmax over the class axis, subtract
one, keep positive entries, sum over the row axis. -/
def relative_to_absolute (n : ℕ) (R : Fin n → Fin n → Fin 3 → ℤ) : Fin n → ℤ :=
  fun j => ∑ i, max 0 (argmax3 (R i j) - 1)

lemma permutation_to_relative_entry (n : ℕ) (σ : Equiv.Perm (Fin n))
    (i j : Fin n) (k : Fin 3) :
    permutation_to_relative n (permutationMatrix n σ) i j k =
      (if (k : ℤ) = Int.sign ((σ j : ℤ) - (σ i : ℤ)) + 1 then 1 else 0) := by
  have hsum : (∑ a, ∑ b, permutationMatrix n σ i a * sortedRelative n a b *
      permutationMatrix n σ j b) = Int.sign ((σ j : ℤ) - (σ i : ℤ)) := by
    have h1 : ∀ a : Fin n, (∑ b, permutationMatrix n σ i a * sortedRelative n a b *
        permutationMatrix n σ j b) =
        permutationMatrix n σ i a * sortedRelative n a (σ j) := by
      intro a
      rw [Finset.sum_eq_single (σ j)]
      · simp [permutationMatrix]
      · intro b _ hb
        simp [permutationMatrix, hb.symm]
      · intro h
        exact absurd (Finset.mem_univ _) h
    rw [Finset.sum_congr rfl (fun a _ => h1 a)]
    rw [Finset.sum_eq_single (σ i)]
    · simp [permutationMatrix, sortedRelative]
    · intro a _ ha
      simp [permutationMatrix, ha.symm]
    · intro h
      exact absurd (Finset.mem_univ _) h
  simp only [permutation_to_relative, hsum]

lemma argmax3_onehot (m : ℤ) (hm : m = 0 ∨ m = 1 ∨ m = 2) :
    argmax3 (fun k : Fin 3 => if (k : ℤ) = m then 1 else 0) = m := by
  rcases hm with h | h | h <;> subst h <;> simp [argmax3]

lemma relu_argmax_relative (n : ℕ) (σ : Equiv.Perm (Fin n)) (i j : Fin n) :
    max 0 (argmax3 (permutation_to_relative n (permutationMatrix n σ) i j) - 1) =
      (if σ i < σ j then 1 else 0) := by
  have hrel : permutation_to_relative n (permutationMatrix n σ) i j =
      fun k : Fin 3 => if (k : ℤ) = Int.sign ((σ j : ℤ) - (σ i : ℤ)) + 1 then 1 else 0 := by
    funext k; exact permutation_to_relative_entry n σ i j k
  rw [hrel]
  set d : ℤ := (σ j : ℤ) - (σ i : ℤ) with hd
  have hcases : Int.sign d = -1 ∨ Int.sign d = 0 ∨ Int.sign d = 1 := by
    rcases lt_trichotomy d 0 with h | h | h
    · exact Or.inl (Int.sign_eq_neg_one_of_neg h)
    · exact Or.inr (Or.inl (by simp [h]))
    · exact Or.inr (Or.inr (Int.sign_eq_one_of_pos h))
  have hlt : σ i < σ j ↔ 0 < d := by
    constructor
    · intro h
      have : (σ i : ℤ) < (σ j : ℤ) := by exact_mod_cast h
      omega
    · intro h
      have : (σ i : ℤ) < (σ j : ℤ) := by omega
      exact_mod_cast this
  rcases hcases with h | h | h
  · have hdneg : d < 0 := by
      rcases lt_trichotomy d 0 with h' | h' | h'
      · exact h'
      · simp [h'] at h
      · rw [Int.sign_eq_one_of_pos h'] at h; omega
    have harg : argmax3 (fun k : Fin 3 => if (k : ℤ) = Int.sign d + 1 then 1 else 0) = 0 := by
      rw [h]; exact argmax3_onehot 0 (Or.inl rfl)
    rw [harg]
    have : ¬ σ i < σ j := by rw [hlt]; omega
    simp [this]
  · have hdz : d = 0 := Int.sign_eq_zero_iff_zero.mp h
    have harg : argmax3 (fun k : Fin 3 => if (k : ℤ) = Int.sign d + 1 then 1 else 0) = 1 := by
      rw [h]; exact argmax3_onehot 1 (Or.inr (Or.inl rfl))
    rw [harg]
    have : ¬ σ i < σ j := by rw [hlt]; omega
    simp [this]
  · have hdpos : 0 < d := by
      rcases lt_trichotomy d 0 with h' | h' | h'
      · rw [Int.sign_eq_neg_one_of_neg h'] at h; omega
      · simp [h'] at h
      · exact h'
    have harg : argmax3 (fun k : Fin 3 => if (k : ℤ) = Int.sign d + 1 then 1 else 0) = 2 := by
      rw [h]; exact argmax3_onehot 2 (Or.inr (Or.inr rfl))
    rw [harg]
    have : σ i < σ j := hlt.mpr hdpos
    simp [this]

lemma card_filter_perm_lt (n : ℕ) (σ : Equiv.Perm (Fin n)) (j : Fin n) :
    (Finset.univ.filter fun i => σ i < σ j).card = (σ j : ℕ) := by
  have hbij : (Finset.univ.filter fun i => σ i < σ j) =
      (Finset.univ.filter fun b => b < σ j).image σ.symm := by
    ext i
    simp only [Finset.mem_filter, Finset.mem_univ, true_and, Finset.mem_image]
    constructor
    · intro h
      exact ⟨σ i, h, σ.symm_apply_apply i⟩
    · rintro ⟨b, hb, rfl⟩
      simpa using hb
  rw [hbij, Finset.card_image_of_injective _ σ.symm.injective]
  have : (Finset.univ.filter fun b : Fin n => b < σ j) = Finset.Iio (σ j) := by
    ext b; simp
  rw [this, Fin.card_Iio]

/-- C1: round-trip law.  For every hard permutation matrix, recovering
positions from the relative-position tensor (argmax over the class axis,
minus one, relu, sum over the row axis, exactly as `inspect_order.py`
does) yields for each step the number of other steps ordered before it,
which is that step's absolute rank under the permutation. -/
theorem relative_roundtrip (n : ℕ) (σ : Equiv.Perm (Fin n)) (j : Fin n) :
    relative_to_absolute n (permutation_to_relative n (permutationMatrix n σ)) j =
      ((Finset.univ.filter fun i => σ i < σ j).card : ℤ) ∧
    relative_to_absolute n (permutation_to_relative n (permutationMatrix n σ)) j =
      ((σ j : ℕ) : ℤ) := by
  have h1 : relative_to_absolute n (permutation_to_relative n (permutationMatrix n σ)) j =
      ((Finset.univ.filter fun i => σ i < σ j).card : ℤ) := by
    unfold relative_to_absolute
    rw [Finset.sum_congr rfl (fun i _ => relu_argmax_relative n σ i j)]
    simp [Finset.sum_boole]
  exact ⟨h1, by rw [h1, card_filter_perm_lt]⟩

/-! # Pointer labels

`permutation_to_pointer` (called by `prepare_permutation`,
`inspect_order.py` lines 340-343) converts a permutation to per-step
insertion-pointer label distributions, and additionally returns the
partial absolute position of each step at each decoding time step. -/

/-- Insertion slot of generation step `t`: the number of already-placed
steps whose assigned position precedes that of step `t`. -/
def slotOf (n : ℕ) (σ : Equiv.Perm (Fin n)) (t : Fin n) : ℕ :=
  (Finset.univ.filter fun i => i < t ∧ σ i < σ t).card

/-- Partial absolute position of step `i` once steps `0..t` have been
placed: the number of placed steps whose assigned position precedes that
of step `i`. -/
def partialPosition (n : ℕ) (σ : Equiv.Perm (Fin n)) (t i : Fin n) : ℕ :=
  (Finset.univ.filter fun j => j ≤ t ∧ σ j < σ i).card

/-- Modelled from the spec: `voi.permutation_utils.permutation_to_pointer`
is imported but absent from the sources.  Per the spec it returns, for
each generation step, the one-hot distribution over insertion slots
among the already-placed steps, and, as a side output, the absolute
position assigned to each step so far. -/
def permutation_to_pointer (n : ℕ) (σ : Equiv.Perm (Fin n)) :
    (Fin n → ℕ → ℚ) × (Fin n → Fin n → ℕ) :=
  (fun t s => if s = slotOf n σ t then 1 else 0,
   fun t i => partialPosition n σ t i)

lemma slotOf_le (n : ℕ) (σ : Equiv.Perm (Fin n)) (t : Fin n) :
    slotOf n σ t ≤ (t : ℕ) := by
  unfold slotOf
  have hsub : (Finset.univ.filter fun i => i < t ∧ σ i < σ t) ⊆
      (Finset.univ.filter fun i : Fin n => i < t) := by
    intro i hi
    simp only [Finset.mem_filter, Finset.mem_univ, true_and] at *
    exact hi.1
  calc (Finset.univ.filter fun i => i < t ∧ σ i < σ t).card
      ≤ (Finset.univ.filter fun i : Fin n => i < t).card := Finset.card_le_card hsub
    _ = (t : ℕ) := by
        have : (Finset.univ.filter fun i : Fin n => i < t) = Finset.Iio t := by
          ext b; simp
        rw [this, Fin.card_Iio]

lemma slotOf_matrix_mass (n : ℕ) (σ : Equiv.Perm (Fin n)) (t : Fin n) :
    ((slotOf n σ t : ℕ) : ℤ) =
      ∑ i ∈ Finset.univ.filter (fun i => i < t),
        ∑ c ∈ Finset.univ.filter (fun c => c < σ t), permutationMatrix n σ i c := by
  have hinner : ∀ i : Fin n,
      (∑ c ∈ Finset.univ.filter (fun c => c < σ t), permutationMatrix n σ i c) =
        (if σ i < σ t then 1 else 0) := by
    intro i
    unfold permutationMatrix
    rw [Finset.sum_ite_eq (Finset.univ.filter (fun c => c < σ t)) (σ i) (fun _ => (1 : ℤ))]
    simp
  rw [Finset.sum_congr rfl (fun i _ => hinner i)]
  rw [Finset.sum_ite, Finset.sum_const, Finset.sum_const]
  rw [Finset.filter_filter]
  simp [slotOf]

lemma partialPosition_self (n : ℕ) (σ : Equiv.Perm (Fin n)) (t : Fin n) :
    partialPosition n σ t t = slotOf n σ t := by
  unfold partialPosition slotOf
  congr 1
  apply Finset.filter_congr
  intro j _
  constructor
  · rintro ⟨hle, hlt⟩
    refine ⟨lt_of_le_of_ne hle ?_, hlt⟩
    intro h; subst h; exact lt_irrefl _ hlt
  · rintro ⟨hlt, h⟩
    exact ⟨le_of_lt hlt, h⟩

lemma partialPosition_final (n : ℕ) (σ : Equiv.Perm (Fin n)) (t i : Fin n)
    (h : ∀ j : Fin n, j ≤ t) :
    partialPosition n σ t i = (σ i : ℕ) := by
  unfold partialPosition
  have heq : (Finset.univ.filter fun j => j ≤ t ∧ σ j < σ i) =
      (Finset.univ.filter fun j => σ j < σ i) := by
    apply Finset.filter_congr
    intro j _
    simp [h j]
  rw [heq, card_filter_perm_lt]

/-- C4: `permutation_to_pointer` returns a pair whose first component
gives, for each generation step `t`, the distribution over insertion
slots among the already-placed steps: it is one-hot on a slot bounded by
`t`, the hot slot is exactly the mass of the permutation matrix columns
preceding step `t`'s assigned position restricted to the already-placed
prefix rows; the second component records the absolute position assigned
to each step so far, which for the newly inserted step agrees with the
hot slot, and once every step is placed recovers the full absolute
position of every step. -/
theorem permutation_to_pointer_spec (n : ℕ) (σ : Equiv.Perm (Fin n)) (t i : Fin n) :
    (permutation_to_pointer n σ).1 t (slotOf n σ t) = 1 ∧
    (∀ s : ℕ, s ≠ slotOf n σ t → (permutation_to_pointer n σ).1 t s = 0) ∧
    slotOf n σ t ≤ (t : ℕ) ∧
    ((slotOf n σ t : ℕ) : ℤ) =
      (∑ a ∈ Finset.univ.filter (fun a => a < t),
        ∑ c ∈ Finset.univ.filter (fun c => c < σ t), permutationMatrix n σ a c) ∧
    (permutation_to_pointer n σ).2 t t = slotOf n σ t ∧
    ((∀ j : Fin n, j ≤ t) → (permutation_to_pointer n σ).2 t i = (σ i : ℕ)) := by
  refine ⟨by simp [permutation_to_pointer], ?_, slotOf_le n σ t,
    slotOf_matrix_mass n σ t, partialPosition_self n σ t, ?_⟩
  · intro s hs
    simp [permutation_to_pointer, hs]
  · intro h
    exact partialPosition_final n σ t i h

/-- Witness for C4 at a concrete permutation: `n = 3`, `σ = (0 2)` the
swap of steps 0 and 2, `t = 2` (the last step), `i = 0`. -/
theorem permutation_to_pointer_spec_witness :
    (permutation_to_pointer 3 (Equiv.swap 0 2)).1 2 (slotOf 3 (Equiv.swap 0 2) 2) = 1 ∧
    (permutation_to_pointer 3 (Equiv.swap 0 2)).2 2 0 = ((Equiv.swap 0 2 : Equiv.Perm (Fin 3)) 0 : ℕ) := by
  have h := permutation_to_pointer_spec 3 (Equiv.swap 0 2) 2 0
  exact ⟨h.1, h.2.2.2.2.2 (by decide)⟩

/-! # Policy-gradient handling in `prepare_permutation`

`prepare_permutation` (`inspect_order.py` lines 243-347) selects or
computes a permutation for the batch and then branches on the
`policy_gradient` argument; the `with_bvn` choice is a stub that raises
`NotImplementedError` (line 331-332).  The tensor computations performed
before the check (`prepare_batch_for_lm`, `get_permutation`, running the
order model) are total and are abstracted as opaque functions; the
`sao` branch (lines 320-329) calls `adaptive_search`, a name that is
never imported in the module, so entering it raises a `NameError`. -/

inductive DatasetKind
  | captioning
  | wmt
  | django
  | gigaword

/-- The `order` argument: either the name of a fixed order or a
permutation-transformer model, abstracted as a function from batches to
soft permutations. -/
inductive OrderArg (B T : Type)
  | str (s : String)
  | model (f : B → T)

inductive PrepError
  | notImplementedError
  | nameErrorAdaptiveSearch
  | typeErrorNonePermutation
  deriving DecidableEq

/-- Fixed order names accepted at `inspect_order.py` line 300. -/
def fixedOrderNames : List String := ["r2l", "l2r", "rare", "common", "test"]

def saoBranchTaken (B T D : Type) (order : OrderArg B T) (decoder : Option D) : Bool :=
  (match order with
   | OrderArg.str s => s == "sao"
   | OrderArg.model _ => false) && decoder.isSome

/-- Control-flow skeleton of `prepare_permutation`: `get_permutation`,
the order model (`runModelPG` is its `without_bvn` variant) and the
final conversion to relative positions and pointer labels (lines
336-345, `finish`) are opaque.  Raising is modelled by `Except.error`. -/
def prepare_permutation (B T R D : Type)
    (get_permutation : B → String → T)
    (runModelPG : B → T)
    (finish : T → R)
    (batch : B) (order : OrderArg B T) (dataset : DatasetKind)
    (policy_gradient : String) (decoder : Option D) : Except PrepError R :=
  let inputs5a : Option T :=
    match order with
    | OrderArg.str s =>
        if fixedOrderNames.contains s then some (get_permutation batch s) else none
    | OrderArg.model _ => none
  let inputs5b : Option T :=
    match order with
    | OrderArg.model f =>
        if policy_gradient != "without_bvn" then some (f batch) else some (runModelPG batch)
    | OrderArg.str _ => inputs5a
  if saoBranchTaken B T D order decoder then
    Except.error PrepError.nameErrorAdaptiveSearch
  else if policy_gradient == "with_bvn" then
    Except.error PrepError.notImplementedError
  else
    match inputs5b with
    | some t => Except.ok (finish t)
    | none => Except.error PrepError.typeErrorNonePermutation

/-- Error produced under `policy_gradient = "with_bvn"`: always
`NotImplementedError`, except when the (independently broken) `sao`
branch is entered first. -/
def withBvnError (B T D : Type) (order : OrderArg B T) (decoder : Option D) : PrepError :=
  if saoBranchTaken B T D order decoder then PrepError.nameErrorAdaptiveSearch
  else PrepError.notImplementedError

/-- C5: for every batch, order argument, dataset and decoder,
`prepare_permutation` invoked with `policy_gradient = "with_bvn"` raises
and never returns a result; the exception is `NotImplementedError`
whenever the `sao` branch is not entered first (in particular for every
order-model argument, which is how `inspect_order_dataset` calls it). -/
theorem prepare_permutation_with_bvn (B T R D : Type)
    (get_permutation : B → String → T) (runModelPG : B → T) (finish : T → R)
    (batch : B) (order : OrderArg B T) (dataset : DatasetKind) (decoder : Option D) :
    prepare_permutation B T R D get_permutation runModelPG finish
        batch order dataset "with_bvn" decoder =
      Except.error (withBvnError B T D order decoder) ∧
    ∀ r : R, prepare_permutation B T R D get_permutation runModelPG finish
        batch order dataset "with_bvn" decoder ≠ Except.ok r := by
  have h : prepare_permutation B T R D get_permutation runModelPG finish
      batch order dataset "with_bvn" decoder =
      Except.error (withBvnError B T D order decoder) := by
    unfold prepare_permutation withBvnError
    by_cases hs : saoBranchTaken B T D order decoder = true
    · simp [hs]
    · simp [hs]
  exact ⟨h, by intro r hr; rw [h] at hr; exact Except.noConfusion hr⟩

/-- Witness for C5: a concrete call with an order model and no decoder
raises exactly `NotImplementedError`. -/
theorem prepare_permutation_with_bvn_witness :
    prepare_permutation Unit Unit Unit Unit (fun _ _ => ()) (fun _ => ()) (fun _ => ())
        () (OrderArg.model fun _ => ()) DatasetKind.wmt "with_bvn" none =
      Except.error PrepError.notImplementedError := by
  have h := prepare_permutation_with_bvn Unit Unit Unit Unit
    (fun _ _ => ()) (fun _ => ()) (fun _ => ())
    () (OrderArg.model fun _ => ()) DatasetKind.wmt none
  simpa [withBvnError, saoBranchTaken] using h.1

/-! # Vocabulary creation and sentence encoding (`captions_wmt.py`)

`create_vocab_file` (lines 102-140) sorts words by decreasing
frequency, finds the index of the first word whose frequency falls below
`min_word_frequency` (the loop at lines 109-112 also leaves the index at
the last position when no word falls below), writes the four reserved
tokens followed by the first `split + 1` sorted words, and builds a
`Vocabulary` with `<unk>` at id 1.  `process_wmt` (lines 150-168) wraps
every encoded sentence with id 2 in front and id 3 at the back. -/

def reservedTokens : List String := ["<pad>", "<unk>", "<start>", "<end>"]

/-- Insertion into a list kept in decreasing order of frequency;
stable, as Python's `sorted` with `reverse=True` is. -/
def insertDesc (x : String × ℕ) : List (String × ℕ) → List (String × ℕ)
  | [] => [x]
  | y :: ys => if y.2 < x.2 then x :: y :: ys else y :: insertDesc x ys

/-- Sorting `freq.items()` by decreasing frequency. -/
def sortDesc : List (String × ℕ) → List (String × ℕ)
  | [] => []
  | x :: xs => insertDesc x (sortDesc xs)

/-- The split-finding loop of `create_vocab_file` (lines 109-112):
`split` is overwritten with each index and the loop breaks at the first
frequency strictly below `min_word_frequency`; when the loop runs to the
end `split` remains at the last index. -/
def findSplit (mwf : ℕ) : List ℕ → ℕ
  | [] => 0
  | [_] => 0
  | f :: g :: rest => if f < mwf then 0 else findSplit mwf (g :: rest) + 1

/-- Words kept from the sorted frequency table: the first `split + 1`. -/
def takenPairs (pairs : List (String × ℕ)) (mwf : ℕ) : List (String × ℕ) :=
  (sortDesc pairs).take (findSplit mwf ((sortDesc pairs).map Prod.snd) + 1)

/-- The vocabulary written on the fresh-file path of `create_vocab_file`:
the four reserved tokens followed by the kept words. -/
def create_vocab_file (pairs : List (String × ℕ)) (mwf : ℕ) : List String :=
  reservedTokens ++ (takenPairs pairs mwf).map Prod.fst

/-- Sentence encoding of `process_wmt` (lines 152-155): word ids wrapped
with the start id 2 in front and the end id 3 at the back
(`words_to_ids` of the external `Vocabulary` class is abstracted). -/
def encodeSentence (toId : String → ℕ) (ws : List String) : List ℕ :=
  [2] ++ ws.map toId ++ [3]

lemma mem_insertDesc (x y : String × ℕ) (l : List (String × ℕ)) :
    y ∈ insertDesc x l ↔ y = x ∨ y ∈ l := by
  induction l with
  | nil => simp [insertDesc]
  | cons z zs ih =>
      by_cases h : z.2 < x.2
      · simp [insertDesc, h]
      · simp [insertDesc, h, ih]
        tauto

lemma mem_sortDesc (y : String × ℕ) (l : List (String × ℕ)) :
    y ∈ sortDesc l ↔ y ∈ l := by
  induction l with
  | nil => simp [sortDesc]
  | cons x xs ih => simp [sortDesc, mem_insertDesc, ih]

lemma countP_take_findSplit (mwf : ℕ) (l : List (String × ℕ))
    (h : ∃ x ∈ l, x.2 < mwf) :
    (l.take (findSplit mwf (l.map Prod.snd) + 1)).countP
      (fun x => decide (x.2 < mwf)) = 1 := by
  induction l with
  | nil => simp at h
  | cons x xs ih =>
      cases xs with
      | nil =>
          rcases h with ⟨y, hy, hlt⟩
          simp only [List.mem_singleton] at hy
          subst hy
          simp [findSplit, List.countP_cons, hlt]
      | cons y ys =>
          by_cases hx : x.2 < mwf
          · simp [findSplit, hx, List.countP_cons]
          · have hsplit : findSplit mwf ((x :: y :: ys).map Prod.snd) =
                findSplit mwf ((y :: ys).map Prod.snd) + 1 := by
              simp [findSplit, hx]
            rw [hsplit]
            have hex : ∃ z ∈ y :: ys, z.2 < mwf := by
              rcases h with ⟨z, hz, hlt⟩
              rcases List.mem_cons.mp hz with rfl | hz'
              · exact absurd hlt hx
              · exact ⟨z, hz', hlt⟩
            have h2 := ih hex
            rw [List.take_succ_cons, List.countP_cons]
            simpa [hx] using h2

lemma take_findSplit_all (mwf : ℕ) (l : List (String × ℕ))
    (h : ∀ x ∈ l, mwf ≤ x.2) :
    l.take (findSplit mwf (l.map Prod.snd) + 1) = l := by
  induction l with
  | nil => simp
  | cons x xs ih =>
      cases xs with
      | nil => simp [findSplit]
      | cons y ys =>
          have hx : ¬ x.2 < mwf := not_lt.mpr (h x (List.mem_cons_self x _))
          have hsplit : findSplit mwf ((x :: y :: ys).map Prod.snd) =
              findSplit mwf ((y :: ys).map Prod.snd) + 1 := by
            simp [findSplit, hx]
          rw [hsplit, List.take_succ_cons, ih (fun z hz => h z (List.mem_cons_of_mem _ hz))]

/-- C10: on the fresh-file path, the written vocabulary is the four
reserved tokens followed by the `split + 1` most frequent words, where
`split` is the position of the first word (in decreasing-frequency
order) with frequency strictly below `min_word_frequency`; when at least
one word falls below the threshold exactly one kept word is below it,
and when none does every word is kept. -/
theorem create_vocab_file_split (pairs : List (String × ℕ)) (mwf : ℕ) :
    create_vocab_file pairs mwf = reservedTokens ++ (takenPairs pairs mwf).map Prod.fst ∧
    ((∃ x ∈ pairs, x.2 < mwf) →
      (takenPairs pairs mwf).countP (fun x => decide (x.2 < mwf)) = 1) ∧
    ((∀ x ∈ pairs, mwf ≤ x.2) →
      takenPairs pairs mwf = sortDesc pairs ∧
      ∀ x ∈ pairs, x ∈ takenPairs pairs mwf) := by
  refine ⟨rfl, ?_, ?_⟩
  · intro h
    apply countP_take_findSplit
    rcases h with ⟨x, hx, hlt⟩
    exact ⟨x, (mem_sortDesc x pairs).mpr hx, hlt⟩
  · intro h
    have hall : ∀ x ∈ sortDesc pairs, mwf ≤ x.2 :=
      fun x hx => h x ((mem_sortDesc x pairs).mp hx)
    have heq : takenPairs pairs mwf = sortDesc pairs :=
      take_findSplit_all mwf (sortDesc pairs) hall
    exact ⟨heq, fun x hx => heq ▸ (mem_sortDesc x pairs).mpr hx⟩

/-- Witness for C10 at a concrete frequency table: with threshold 3 and
frequencies 7, 5, 2 exactly one kept word is below the threshold, and
with threshold 2 every word is kept. -/
theorem create_vocab_file_split_witness :
    (takenPairs [("a", 5), ("b", 2), ("c", 7)] 3).countP
      (fun x => decide (x.2 < 3)) = 1 ∧
    takenPairs [("a", 5), ("b", 2), ("c", 7)] 2 =
      sortDesc [("a", 5), ("b", 2), ("c", 7)] := by
  constructor
  · exact (create_vocab_file_split [("a", 5), ("b", 2), ("c", 7)] 3).2.1
      ⟨("b", 2), by decide, by decide⟩
  · exact ((create_vocab_file_split [("a", 5), ("b", 2), ("c", 7)] 2).2.2
      (by decide)).1

/-- C6: ids 0 to 3 are reserved: the vocabulary written by
`create_vocab_file` begins with `<pad>`, `<unk>`, `<start>`, `<end>` in
that order (so `<unk>` sits at the unknown id 1), and every sentence
encoded by `process_wmt` starts with the start id 2 and ends with the
end id 3. -/
theorem reserved_ids (pairs : List (String × ℕ)) (mwf : ℕ)
    (toId : String → ℕ) (ws : List String) :
    (create_vocab_file pairs mwf).take 4 = ["<pad>", "<unk>", "<start>", "<end>"] ∧
    (create_vocab_file pairs mwf)[0]? = some "<pad>" ∧
    (create_vocab_file pairs mwf)[1]? = some "<unk>" ∧
    (create_vocab_file pairs mwf)[2]? = some "<start>" ∧
    (create_vocab_file pairs mwf)[3]? = some "<end>" ∧
    (encodeSentence toId ws).head? = some 2 ∧
    (encodeSentence toId ws).getLast? = some 3 := by
  refine ⟨?_, ?_, ?_, ?_, ?_, rfl, ?_⟩
  · simp [create_vocab_file, reservedTokens]
  · simp [create_vocab_file, reservedTokens]
  · simp [create_vocab_file, reservedTokens]
  · simp [create_vocab_file, reservedTokens]
  · simp [create_vocab_file, reservedTokens]
  · have : encodeSentence toId ws = ([2] ++ ws.map toId) ++ [3] := by
      simp [encodeSentence]
    rw [this, List.getLast?_concat]

/-! # Batch preparation for the language model (`inspect_order.py`)

`prepare_batch_for_lm_wmt` (lines 113-149) and
`prepare_batch_for_lm_captioning` (lines 72-108) build a 16-entry list
of tensors and `None` placeholders and pass it through
`repeat_tensor_list`, which repeats every `tf.Tensor` entry
`action_refinement` times along axis 0 and leaves other entries
untouched.  A tensor is a list of rows (axis 0); row-level slicing and
comparison ops are abstracted. -/

structure WmtBatch (α : Type) where
  encoder_words : List α
  encoder_token_indicators : List α
  decoder_words : List α
  decoder_token_indicators : List α

structure CocoBatch (α : Type) where
  image_indicators : List α
  boxes_features : List α
  boxes : List α
  labels : List α
  words : List α
  token_indicators : List α

structure TensorOps (α : Type) where
  dropLastCol : α → α
  dropFirstCol : α → α
  gtZero : α → α
  zeroRow : α
  zeroVecRow : α

/-- Repetition of each row `k` times in place, as `tf.repeat (·, k,
axis=0)` does. -/
def repeatRows (k : ℕ) : List α → List α
  | [] => []
  | x :: xs => List.replicate k x ++ repeatRows k xs

/-- The inner `repeat_tensor_list` helper: tensor entries are repeated
along axis 0, non-tensor entries (`None`) pass through unchanged. -/
def repeat_tensor_list (k : ℕ) (lst : List (Option (List α))) : List (Option (List α)) :=
  lst.map fun e =>
    match e with
    | some t => some (repeatRows k t)
    | none => none

/-- The 16-entry list built by `prepare_batch_for_lm_wmt` before
repetition (lines 145-149). -/
def wmtLmList (ops : TensorOps α) (b : WmtBatch α) : List (Option (List α)) :=
  [some (b.decoder_words.map ops.dropLastCol),
   some b.encoder_words,
   some ((b.decoder_token_indicators.map ops.dropLastCol).map ops.gtZero),
   some (b.encoder_token_indicators.map ops.gtZero),
   some (b.decoder_words.map ops.dropFirstCol),
   none, none, none, none, none, none,
   some (List.replicate b.decoder_token_indicators.length ops.zeroRow),
   some (List.replicate b.decoder_token_indicators.length ops.zeroRow),
   some (List.replicate b.decoder_token_indicators.length ops.zeroRow),
   some (List.replicate b.decoder_token_indicators.length ops.zeroRow),
   some (List.replicate b.decoder_token_indicators.length ops.zeroVecRow)]

def prepare_batch_for_lm_wmt (ops : TensorOps α) (action_refinement : ℕ)
    (b : WmtBatch α) : List (Option (List α)) :=
  repeat_tensor_list action_refinement (wmtLmList ops b)

/-- The 16-entry list built by `prepare_batch_for_lm_captioning` before
repetition (lines 105-108). -/
def cocoLmList (ops : TensorOps α) (b : CocoBatch α) : List (Option (List α)) :=
  [some (b.words.map ops.dropLastCol),
   some (List.replicate b.token_indicators.length ops.zeroRow),
   some ((b.token_indicators.map ops.dropLastCol).map ops.gtZero),
   some (b.image_indicators.map ops.gtZero),
   some (b.words.map ops.dropFirstCol),
   none, none, none, none, none, none,
   some (List.replicate b.token_indicators.length ops.zeroRow),
   some (List.replicate b.token_indicators.length ops.zeroRow),
   some b.labels,
   some b.boxes_features,
   some b.boxes]

def prepare_batch_for_lm_captioning (ops : TensorOps α) (action_refinement : ℕ)
    (b : CocoBatch α) : List (Option (List α)) :=
  repeat_tensor_list action_refinement (cocoLmList ops b)

lemma repeatRows_length (k : ℕ) (l : List α) :
    (repeatRows k l).length = k * l.length := by
  induction l with
  | nil => simp [repeatRows]
  | cons x xs ih =>
      simp [repeatRows, ih, Nat.mul_succ, Nat.add_comm]

/-- C9: with `action_refinement = k`, both batch-preparation functions
return the same 16-entry list with every tensor entry repeated `k`
times along axis 0 (so each tensor's batch dimension is multiplied by
`k`) and every `None` placeholder passed through unchanged. -/
theorem prepare_batch_for_lm_repeats (α : Type) (ops : TensorOps α) (k : ℕ)
    (bw : WmtBatch α) (bc : CocoBatch α) :
    prepare_batch_for_lm_wmt ops k bw =
      (wmtLmList ops bw).map (fun e => Option.map (repeatRows k) e) ∧
    prepare_batch_for_lm_captioning ops k bc =
      (cocoLmList ops bc).map (fun e => Option.map (repeatRows k) e) ∧
    (∀ i : ℕ, ((wmtLmList ops bw).getD i none = none ↔
      (prepare_batch_for_lm_wmt ops k bw).getD i none = none)) ∧
    (∀ l : List α, (repeatRows k l).length = k * l.length) := by
  have hmap : ∀ lst : List (Option (List α)),
      repeat_tensor_list k lst = lst.map (fun e => Option.map (repeatRows k) e) := by
    intro lst
    unfold repeat_tensor_list
    apply List.map_congr_left
    intro e _
    cases e <;> rfl
  refine ⟨hmap _, hmap _, ?_, repeatRows_length k⟩
  intro i
  unfold prepare_batch_for_lm_wmt
  rw [hmap]
  by_cases hi : i < (wmtLmList ops bw).length
  · rw [List.getD_eq_getElem _ _ hi, List.getD_eq_getElem _ _ (by simpa using hi)]
    rw [List.getElem_map]
    cases h : (wmtLmList ops bw)[i] <;> simp [h]
  · rw [List.getD_eq_default _ _ (by omega), List.getD_eq_default _ _ (by simpa using hi)]

/-! # Search decoder termination policy

`beam_search` and `nucleus_sampling` (called from
`inspect_order_dataset.decode_function`, `inspect_order.py` lines
498-502) live in `voi/algorithms/`, outside the sources.  The loop
skeleton below is modelled from the spec: hypotheses are extended until
they emit the end marker or the iteration budget runs out, and on
reaching `max_iterations` the remaining live hypotheses are finalized
at their current length and flagged as truncated instead of raising. -/

structure Hypo where
  tokens : List ℕ
  logp : ℚ
  finished : Bool

structure DecodedOut where
  tokens : List ℕ
  logp : ℚ
  truncated : Bool

/-- Errors of the spec's taxonomy that a decoder could raise; the claim
is that reaching the iteration budget never produces one. -/
inductive DecodeError
  | shapeMismatch

/-- Modelled from the spec: one decode step extends every live
hypothesis with the joint choice picked by the scoring callable
(abstracted to a function from the tokens so far to a token and a
log-probability) and finalizes it when the end marker is emitted;
finished hypotheses are held aside unchanged. -/
def stepHypo (score : List ℕ → ℕ × ℚ) (eos : ℕ) (h : Hypo) : Hypo :=
  if h.finished then h
  else
    let c := score h.tokens
    { tokens := h.tokens ++ [c.1], logp := h.logp + c.2, finished := c.1 == eos }

/-- Modelled from the spec: the decode loop runs at most
`max_iterations` steps. -/
def runDecode (score : List ℕ → ℕ × ℚ) (eos : ℕ) : ℕ → List Hypo → List Hypo
  | 0, hs => hs
  | t + 1, hs => runDecode score eos t (hs.map (stepHypo score eos))

/-- Finalization surfaces the truncation condition as a boolean: a
hypothesis still live when the budget is exhausted keeps its current
tokens and is flagged truncated. -/
def finalizeHypo (h : Hypo) : DecodedOut :=
  { tokens := h.tokens, logp := h.logp, truncated := !h.finished }

/-- Modelled from the spec: the whole decoder returns normally for every
`max_iterations` (including 0); no error is raised on budget
exhaustion. -/
def decode (score : List ℕ → ℕ × ℚ) (eos : ℕ) (max_iterations : ℕ)
    (hs : List Hypo) : Except DecodeError (List DecodedOut) :=
  Except.ok ((runDecode score eos max_iterations hs).map finalizeHypo)

lemma runDecode_length (score : List ℕ → ℕ × ℚ) (eos : ℕ) (t : ℕ) (hs : List Hypo) :
    (runDecode score eos t hs).length = hs.length := by
  induction t generalizing hs with
  | zero => rfl
  | succ t ih => simp [runDecode, ih]

/-- C7: for every input batch and every `max_iterations` (including 0),
the decoder never raises on reaching the budget: it returns `ok` with
one output per hypothesis, every hypothesis still live at exhaustion is
finalized at its current length with its truncation flag set, and with
`max_iterations = 0` every hypothesis is finalized immediately. -/
theorem decode_never_raises (score : List ℕ → ℕ × ℚ) (eos : ℕ)
    (max_iterations : ℕ) (hs : List Hypo) :
    decode score eos max_iterations hs =
      Except.ok ((runDecode score eos max_iterations hs).map finalizeHypo) ∧
    (∀ e : DecodeError, decode score eos max_iterations hs ≠ Except.error e) ∧
    ((runDecode score eos max_iterations hs).map finalizeHypo).length = hs.length ∧
    (∀ h ∈ runDecode score eos max_iterations hs, h.finished = false →
      finalizeHypo h = { tokens := h.tokens, logp := h.logp, truncated := true }) ∧
    (max_iterations = 0 → decode score eos max_iterations hs =
      Except.ok (hs.map fun h => { tokens := h.tokens, logp := h.logp,
                                   truncated := !h.finished })) := by
  refine ⟨rfl, ?_, ?_, ?_, ?_⟩
  · intro e he
    exact Except.noConfusion he
  · simp [runDecode_length]
  · intro h _ hfin
    simp [finalizeHypo, hfin]
  · intro ht
    subst ht
    rfl

/-- Witness for C7: a scorer that never emits the end marker together
with a zero iteration budget still returns `ok`, with the single
hypothesis truncated at its current length. -/
theorem decode_never_raises_witness :
    decode (fun _ => (5, -1)) 3 0 [{ tokens := [2], logp := 0, finished := false }] =
      Except.ok [{ tokens := [2], logp := 0, truncated := true }] ∧
    (∀ e : DecodeError,
      decode (fun _ => (5, -1)) 3 0 [{ tokens := [2], logp := 0, finished := false }] ≠
        Except.error e) := by
  have h := decode_never_raises (fun _ => (5, -1)) 3 0
    [{ tokens := [2], logp := 0, finished := false }]
  exact ⟨h.2.2.2.2 rfl, h.2.1⟩

/-! # Levenshtein distance (`inspect_order.py` lines 24-46)

`levenshtein` fills a `(|a|+1) x (|b|+1)` table: first row and column
hold the prefix lengths, and each inner cell takes the minimum of the
deletion, diagonal (free on a match, plus one otherwise) and insertion
candidates; the returned value is the bottom-right cell.  `levTable` is
that recurrence; the reference `editDist` consumes the sequences from
the front, and `Edits` counts edit scripts. -/

namespace VoiLev

def levTable [DecidableEq α] (a b : List α) : ℕ → ℕ → ℕ
  | x, 0 => x
  | 0, y + 1 => y + 1
  | x + 1, y + 1 =>
      if a[x]? = b[y]? then
        min (levTable a b x (y + 1) + 1)
          (min (levTable a b x y) (levTable a b (x + 1) y + 1))
      else
        min (levTable a b x (y + 1) + 1)
          (min (levTable a b x y + 1) (levTable a b (x + 1) y + 1))
termination_by x y => (x, y)

/-- The `levenshtein` function of `inspect_order.py`: the bottom-right
cell of the filled table. -/
def levenshtein [DecidableEq α] (a b : List α) : ℕ :=
  levTable a b a.length b.length

/-- Reference edit distance consuming both sequences at the front. -/
def editDist [DecidableEq α] : List α → List α → ℕ
  | [], ys => ys.length
  | x :: xs, [] => (x :: xs).length
  | x :: xs, y :: ys =>
      if x = y then
        min (editDist xs (y :: ys) + 1)
          (min (editDist xs ys) (editDist (x :: xs) ys + 1))
      else
        min (editDist xs (y :: ys) + 1)
          (min (editDist xs ys + 1) (editDist (x :: xs) ys + 1))
termination_by xs ys => (xs.length, ys.length)

/-- Edit scripts: `Edits a b n` holds when `n` copies, substitutions,
insertions and deletions (counting only the last three) transform `a`
into `b`. -/
inductive Edits : List α → List α → ℕ → Prop
  | nil : Edits [] [] 0
  | copy (a : α) {xs ys : List α} {n : ℕ} : Edits xs ys n → Edits (a :: xs) (a :: ys) n
  | sub (a b : α) {xs ys : List α} {n : ℕ} : Edits xs ys n → Edits (a :: xs) (b :: ys) (n + 1)
  | ins (b : α) {xs ys : List α} {n : ℕ} : Edits xs ys n → Edits xs (b :: ys) (n + 1)
  | del (a : α) {xs ys : List α} {n : ℕ} : Edits xs ys n → Edits (a :: xs) ys (n + 1)

lemma editDist_nil_right [DecidableEq α] (l : List α) : editDist l [] = l.length := by
  cases l <;> simp [editDist]

lemma editDist_nil_left [DecidableEq α] (l : List α) : editDist [] l = l.length := by
  simp [editDist]

lemma editDist_self [DecidableEq α] (l : List α) : editDist l l = 0 := by
  induction l with
  | nil => simp [editDist]
  | cons x xs ih =>
      simp only [editDist]
      split
      · rw [ih]; omega
      · simp_all

lemma editDist_le_cons_left [DecidableEq α] (a : α) (xs ys : List α) :
    editDist (a :: xs) ys ≤ editDist xs ys + 1 := by
  cases ys with
  | nil => simp [editDist_nil_right]
  | cons y ys =>
      simp only [editDist]
      split <;> omega

lemma editDist_le_cons_right [DecidableEq α] (b : α) (xs ys : List α) :
    editDist xs (b :: ys) ≤ editDist xs ys + 1 := by
  cases xs with
  | nil => simp [editDist]
  | cons x xs =>
      simp only [editDist]
      split <;> omega

lemma editDist_le_cons_both [DecidableEq α] (a b : α) (xs ys : List α) :
    editDist (a :: xs) (b :: ys) ≤ editDist xs ys + 1 := by
  simp only [editDist]
  split <;> omega

lemma editDist_cons_eq_le [DecidableEq α] (a : α) (xs ys : List α) :
    editDist (a :: xs) (a :: ys) ≤ editDist xs ys := by
  simp only [editDist]
  split
  · omega
  · simp_all

lemma editDist_le_of_edits [DecidableEq α] {xs ys : List α} {n : ℕ}
    (h : Edits xs ys n) : editDist xs ys ≤ n := by
  induction h with
  | nil => simp [editDist]
  | copy a h ih => exact le_trans (editDist_cons_eq_le _ _ _) ih
  | sub a b h ih => exact le_trans (editDist_le_cons_both _ _ _ _) (by omega)
  | ins b h ih => exact le_trans (editDist_le_cons_right _ _ _) (by omega)
  | del a h ih => exact le_trans (editDist_le_cons_left _ _ _) (by omega)

lemma edits_nil_left (l : List α) : Edits ([] : List α) l l.length := by
  induction l with
  | nil => exact Edits.nil
  | cons x xs ih => exact Edits.ins x ih

lemma edits_nil_right (l : List α) : Edits l ([] : List α) l.length := by
  induction l with
  | nil => exact Edits.nil
  | cons x xs ih => exact Edits.del x ih

lemma edits_editDist_aux [DecidableEq α] :
    ∀ (N : ℕ) (xs ys : List α), xs.length + ys.length ≤ N →
      Edits xs ys (editDist xs ys) := by
  intro N
  induction N with
  | zero =>
      intro xs ys h
      have hx : xs = [] := List.eq_nil_of_length_eq_zero (by omega)
      have hy : ys = [] := List.eq_nil_of_length_eq_zero (by omega)
      subst hx; subst hy
      simpa [editDist] using Edits.nil
  | succ N ih =>
      intro xs ys h
      cases xs with
      | nil =>
          simpa [editDist] using edits_nil_left ys
      | cons x xs =>
          cases ys with
          | nil =>
              simpa [editDist_nil_right] using edits_nil_right (x :: xs)
          | cons y ys =>
              have h1 : Edits xs (y :: ys) (editDist xs (y :: ys)) := by
                apply ih; simp at h ⊢; omega
              have h2 : Edits xs ys (editDist xs ys) := by
                apply ih; simp at h ⊢; omega
              have h3 : Edits (x :: xs) ys (editDist (x :: xs) ys) := by
                apply ih; simp at h ⊢; omega
              by_cases hc : x = y
              · subst hc
                simp only [editDist, if_pos rfl]
                rcases min_cases (editDist xs (x :: ys) + 1)
                    (min (editDist xs ys) (editDist (x :: xs) ys + 1)) with
                  ⟨hm, _⟩ | ⟨hm, _⟩
                · rw [hm]; exact Edits.del x h1
                · rw [hm]
                  rcases min_cases (editDist xs ys) (editDist (x :: xs) ys + 1) with
                    ⟨hm2, _⟩ | ⟨hm2, _⟩
                  · rw [hm2]; exact Edits.copy x h2
                  · rw [hm2]; exact Edits.ins x h3
              · simp only [editDist, if_neg hc]
                rcases min_cases (editDist xs (y :: ys) + 1)
                    (min (editDist xs ys + 1) (editDist (x :: xs) ys + 1)) with
                  ⟨hm, _⟩ | ⟨hm, _⟩
                · rw [hm]; exact Edits.del x h1
                · rw [hm]
                  rcases min_cases (editDist xs ys + 1) (editDist (x :: xs) ys + 1) with
                    ⟨hm2, _⟩ | ⟨hm2, _⟩
                  · rw [hm2]; exact Edits.sub x y h2
                  · rw [hm2]; exact Edits.ins y h3

lemma edits_editDist [DecidableEq α] (xs ys : List α) :
    Edits xs ys (editDist xs ys) :=
  edits_editDist_aux (xs.length + ys.length) xs ys le_rfl

lemma edits_swap {xs ys : List α} {n : ℕ} (h : Edits xs ys n) : Edits ys xs n := by
  induction h with
  | nil => exact Edits.nil
  | copy a h ih => exact Edits.copy a ih
  | sub a b h ih => exact Edits.sub b a ih
  | ins b h ih => exact Edits.del b ih
  | del a h ih => exact Edits.ins a ih

lemma editDist_comm [DecidableEq α] (xs ys : List α) :
    editDist xs ys = editDist ys xs :=
  le_antisymm (editDist_le_of_edits (edits_swap (edits_editDist ys xs)))
    (editDist_le_of_edits (edits_swap (edits_editDist xs ys)))

lemma edits_copy_snoc (c : α) {xs ys : List α} {n : ℕ} (h : Edits xs ys n) :
    Edits (xs ++ [c]) (ys ++ [c]) n := by
  induction h with
  | nil => exact Edits.copy c Edits.nil
  | copy a h ih => exact Edits.copy a ih
  | sub a b h ih => exact Edits.sub a b ih
  | ins b h ih => exact Edits.ins b ih
  | del a h ih => exact Edits.del a ih

lemma edits_sub_snoc (c d : α) {xs ys : List α} {n : ℕ} (h : Edits xs ys n) :
    Edits (xs ++ [c]) (ys ++ [d]) (n + 1) := by
  induction h with
  | nil => exact Edits.sub c d Edits.nil
  | copy a h ih => exact Edits.copy a ih
  | sub a b h ih => exact Edits.sub a b ih
  | ins b h ih => exact Edits.ins b ih
  | del a h ih => exact Edits.del a ih

lemma edits_ins_snoc (d : α) {xs ys : List α} {n : ℕ} (h : Edits xs ys n) :
    Edits xs (ys ++ [d]) (n + 1) := by
  induction h with
  | nil => exact Edits.ins d Edits.nil
  | copy a h ih => exact Edits.copy a ih
  | sub a b h ih => exact Edits.sub a b ih
  | ins b h ih => exact Edits.ins b ih
  | del a h ih => exact Edits.del a ih

lemma edits_del_snoc (c : α) {xs ys : List α} {n : ℕ} (h : Edits xs ys n) :
    Edits (xs ++ [c]) ys (n + 1) := by
  induction h with
  | nil => exact Edits.del c Edits.nil
  | copy a h ih => exact Edits.copy a ih
  | sub a b h ih => exact Edits.sub a b ih
  | ins b h ih => exact Edits.ins b ih
  | del a h ih => exact Edits.del a ih

lemma edits_reverse {xs ys : List α} {n : ℕ} (h : Edits xs ys n) :
    Edits xs.reverse ys.reverse n := by
  induction h with
  | nil => simpa using Edits.nil
  | copy a h ih => simpa [List.reverse_cons] using edits_copy_snoc a ih
  | sub a b h ih => simpa [List.reverse_cons] using edits_sub_snoc a b ih
  | ins b h ih => simpa [List.reverse_cons] using edits_ins_snoc b ih
  | del a h ih => simpa [List.reverse_cons] using edits_del_snoc a ih

lemma take_succ_reverse (l : List α) (x : ℕ) (h : x < l.length) :
    (l.take (x + 1)).reverse = l[x] :: (l.take x).reverse := by
  rw [List.take_succ, List.getElem?_eq_getElem h]
  simp

lemma levTable_eq_editDist [DecidableEq α] (a b : List α) :
    ∀ (N x y : ℕ), x + y ≤ N → x ≤ a.length → y ≤ b.length →
      levTable a b x y = editDist (a.take x).reverse (b.take y).reverse := by
  intro N
  induction N with
  | zero =>
      intro x y hN hx hy
      have hx0 : x = 0 := by omega
      have hy0 : y = 0 := by omega
      subst hx0; subst hy0
      simp [levTable, editDist]
  | succ N ih =>
      intro x y hN hx hy
      cases y with
      | zero =>
          simp only [levTable, List.take_zero, List.reverse_nil]
          rw [editDist_nil_right]
          simp [List.length_take, Nat.min_eq_left hx]
      | succ y =>
          cases x with
          | zero =>
              simp only [levTable, List.take_zero, List.reverse_nil]
              rw [editDist_nil_left]
              simp [List.length_take, Nat.min_eq_left hy]
          | succ x =>
              have hx' : x < a.length := by omega
              have hy' : y < b.length := by omega
              have h1 := ih x (y + 1) (by omega) (by omega) hy
              have h2 := ih x y (by omega) (by omega) (by omega)
              have h3 := ih (x + 1) y (by omega) hx (by omega)
              rw [take_succ_reverse a x hx', take_succ_reverse b y hy']
              simp only [levTable, editDist]
              rw [List.getElem?_eq_getElem hx', List.getElem?_eq_getElem hy']
              simp only [Option.some.injEq]
              rw [h1, h2, h3, take_succ_reverse a x hx', take_succ_reverse b y hy']

lemma levenshtein_eq_editDist [DecidableEq α] (a b : List α) :
    levenshtein a b = editDist a.reverse b.reverse := by
  unfold levenshtein
  rw [levTable_eq_editDist a b (a.length + b.length) a.length b.length le_rfl le_rfl le_rfl]
  simp

/-- C8: the `levenshtein` table computes the standard edit distance:
it vanishes on equal sequences, degenerates to the length against the
empty sequence, is symmetric, and equals the minimum number of
insertions, deletions and substitutions transforming one sequence into
the other (`Edits` witnesses a script of that cost, and no script is
cheaper). -/
theorem levenshtein_spec (α : Type) [DecidableEq α] (s a b : List α) :
    levenshtein s s = 0 ∧
    levenshtein s ([] : List α) = s.length ∧
    levenshtein ([] : List α) s = s.length ∧
    levenshtein a b = levenshtein b a ∧
    Edits a b (levenshtein a b) ∧
    (∀ n : ℕ, Edits a b n → levenshtein a b ≤ n) := by
  refine ⟨?_, ?_, ?_, ?_, ?_, ?_⟩
  · rw [levenshtein_eq_editDist, editDist_self]
  · rw [levenshtein_eq_editDist]
    simp [editDist_nil_right]
  · rw [levenshtein_eq_editDist]
    simp [editDist_nil_left]
  · rw [levenshtein_eq_editDist, levenshtein_eq_editDist, editDist_comm]
  · rw [levenshtein_eq_editDist]
    have h := edits_reverse (edits_editDist a.reverse b.reverse)
    simpa using h
  · intro n hn
    rw [levenshtein_eq_editDist]
    exact editDist_le_of_edits (edits_reverse hn)

/-- Witness for C8 on concrete sequences: distance of `[1, 2]` to
itself, to the empty sequence, and the optimality bound against the
concrete one-deletion script turning `[1, 2]` into `[2]`. -/
theorem levenshtein_spec_witness :
    levenshtein ([1, 2] : List ℕ) [1, 2] = 0 ∧
    levenshtein ([1, 2] : List ℕ) [] = 2 ∧
    levenshtein ([1, 2] : List ℕ) [2] ≤ 1 := by
  have h1 := levenshtein_spec ℕ [1, 2] [1, 2] [2]
  exact ⟨h1.1, h1.2.1, h1.2.2.2.2.2 1 (Edits.del 1 (Edits.copy 2 Edits.nil))⟩

end VoiLev

/-! # Stick-breaking doubly-stochastic normalization

`PermutationLayer.call` (`permutation_layer.py` lines 41-92) builds the
pairwise validity mask, ORs it with the identity so the diagonal of
padded rows stays valid (lines 66-77), and hands noisy scores plus that
mask to the `StickBreaking` normalization layer.  `StickBreaking`
(`voi/nn/base/stick_breaking.py`) is absent from the sources; it is
modelled from spec 4.2: cells are processed in a fixed row-major order,
each valid cell receives a share of the remaining row budget picked by a
sigmoid-squashed score but clamped so that the remaining row budget can
still be absorbed by the remaining valid columns, and invalid cells
receive exactly zero.  All arithmetic is exact rational arithmetic. -/

/-- Rational stand-in for the sigmoid squashing of a score into `[0, 1]`. -/
def squash (x : ℚ) : ℚ :=
  if 0 ≤ x then 1 - 1 / (2 * (1 + x)) else 1 / (2 * (1 - x))

/-- The mask handed to stick breaking (`permutation_layer.py` lines
68-77): the pairwise mask `m i && m j` ORed with the identity. -/
def eyeMask (n : ℕ) (m : Fin n → Bool) : Fin n → Fin n → Bool :=
  fun i j => (m i && m j) || (i == j)

/-- Total budget of the still-unprocessed valid columns of a row. -/
def restMass (n : ℕ) (valid : Fin n → Bool) (c : Fin n → ℚ) (cols : List (Fin n)) : ℚ :=
  ((cols.filter fun k => valid k).map c).sum

/-- Mass allocated to one cell: a sigmoid-squashed share of the interval
of values that keep both the row and the remaining columns absorbable;
zero on invalid cells. -/
def cellAlloc (n : ℕ) (score : Fin n → ℚ) (valid : Fin n → Bool) (j : Fin n)
    (r : ℚ) (c : Fin n → ℚ) (cols : List (Fin n)) : ℚ :=
  if valid j then
    max 0 (r - restMass n valid c cols) +
      squash (score j) * (min r (c j) - max 0 (r - restMass n valid c cols))
  else 0

/-- One row of stick breaking: walk the columns, allocate each cell and
debit the row budget `r` and the column budgets `c`. -/
def rowAlloc (n : ℕ) (score : Fin n → ℚ) (valid : Fin n → Bool) :
    List (Fin n) → ℚ → (Fin n → ℚ) → ((Fin n → ℚ) × (Fin n → ℚ))
  | [], _, c => (fun _ => 0, c)
  | j :: cols, r, c =>
      (Function.update
        (rowAlloc n score valid cols (r - cellAlloc n score valid j r c cols)
          (Function.update c j (c j - cellAlloc n score valid j r c cols))).1
        j (cellAlloc n score valid j r c cols),
       (rowAlloc n score valid cols (r - cellAlloc n score valid j r c cols)
          (Function.update c j (c j - cellAlloc n score valid j r c cols))).2)

/-- All rows of stick breaking, processed in order, threading the column
budgets. -/
def allRows (n : ℕ) (score : Fin n → Fin n → ℚ) (M : Fin n → Fin n → Bool) :
    List (Fin n) → (Fin n → ℚ) → ((Fin n → Fin n → ℚ) × (Fin n → ℚ))
  | [], c => (fun _ _ => 0, c)
  | i :: rows, c =>
      (Function.update
        (allRows n score M rows (rowAlloc n (score i) (M i) (List.finRange n) 1 c).2).1
        i (rowAlloc n (score i) (M i) (List.finRange n) 1 c).1,
       (allRows n score M rows (rowAlloc n (score i) (M i) (List.finRange n) 1 c).2).2)

/-- Modelled from the spec: the `StickBreaking` normalization layer,
row-major stick breaking starting from unit row and column budgets. -/
def stick_breaking (n : ℕ) (score : Fin n → Fin n → ℚ) (M : Fin n → Fin n → Bool) :
    Fin n → Fin n → ℚ :=
  (allRows n score M (List.finRange n) (fun _ => 1)).1

def rowSum (n : ℕ) (p : Fin n → ℚ) : ℚ := ((List.finRange n).map p).sum

def colSum (n : ℕ) (P : Fin n → Fin n → ℚ) (k : Fin n) : ℚ :=
  ((List.finRange n).map (fun i => P i k)).sum

lemma squash_nonneg (x : ℚ) : 0 ≤ squash x := by
  unfold squash
  split
  · rename_i h
    have h1 : (0 : ℚ) < 2 * (1 + x) := by linarith
    have h2 : 1 / (2 * (1 + x)) ≤ 1 := by
      rw [div_le_one h1]; linarith
    linarith
  · rename_i h
    have h1 : (0 : ℚ) < 2 * (1 - x) := by
      push_neg at h; linarith
    positivity

lemma squash_le_one (x : ℚ) : squash x ≤ 1 := by
  unfold squash
  split
  · rename_i h
    have h1 : (0 : ℚ) < 2 * (1 + x) := by linarith
    have h2 : 0 ≤ 1 / (2 * (1 + x)) := by positivity
    linarith
  · rename_i h
    push_neg at h
    have h1 : (0 : ℚ) < 2 * (1 - x) := by linarith
    rw [div_le_one h1]
    linarith

lemma listMapSum_nonneg {β : Type} (f : β → ℚ) (l : List β)
    (h : ∀ k ∈ l, 0 ≤ f k) : 0 ≤ (l.map f).sum := by
  induction l with
  | nil => simp
  | cons x xs ih =>
      simp only [List.map_cons, List.sum_cons]
      have := h x (List.mem_cons_self x xs)
      have := ih (fun k hk => h k (List.mem_cons_of_mem x hk))
      linarith

lemma listMapSum_eq_zero {β : Type} (f : β → ℚ) (l : List β)
    (hpos : ∀ k ∈ l, 0 ≤ f k) (hsum : (l.map f).sum = 0) :
    ∀ k ∈ l, f k = 0 := by
  induction l with
  | nil => simp
  | cons x xs ih =>
      simp only [List.map_cons, List.sum_cons] at hsum
      have hx : 0 ≤ f x := hpos x (List.mem_cons_self x xs)
      have hxs : 0 ≤ (xs.map f).sum :=
        listMapSum_nonneg f xs (fun k hk => hpos k (List.mem_cons_of_mem x hk))
      intro k hk
      rcases List.mem_cons.mp hk with rfl | hk'
      · linarith
      · exact ih (fun k hk => hpos k (List.mem_cons_of_mem x hk)) (by linarith) k hk'

lemma listMapSum_sub {β : Type} (f g : β → ℚ) (l : List β) :
    (l.map (fun k => f k - g k)).sum = (l.map f).sum - (l.map g).sum := by
  induction l with
  | nil => simp
  | cons x xs ih =>
      simp only [List.map_cons, List.sum_cons, ih]
      ring

lemma listMapSum_const_one {β : Type} (l : List β) :
    (l.map (fun _ => (1 : ℚ))).sum = (l.length : ℚ) := by
  induction l with
  | nil => simp
  | cons x xs ih =>
      simp only [List.map_cons, List.sum_cons, ih, List.length_cons]
      push_cast
      ring

lemma listMapSum_single {β : Type} [DecidableEq β] (f : β → ℚ) (l : List β) (i : β)
    (hl : l.Nodup) (hi : i ∈ l) (hz : ∀ k ∈ l, k ≠ i → f k = 0) :
    (l.map f).sum = f i := by
  induction l with
  | nil => simp at hi
  | cons x xs ih =>
      simp only [List.map_cons, List.sum_cons]
      rcases List.mem_cons.mp hi with rfl | hi'
      · have hxs : ∀ k ∈ xs, f k = 0 := by
          intro k hk
          have hkx : k ≠ i := by
            intro h; subst h
            exact (List.nodup_cons.mp hl).1 hk
          exact hz k (List.mem_cons_of_mem _ hk) hkx
        have hzero : (xs.map f).sum = 0 := by
          have hmap : xs.map f = xs.map (fun _ => (0 : ℚ)) :=
            List.map_congr_left hxs
          rw [hmap]
          simp
        rw [hzero]; ring
      · have hx0 : f x = 0 := by
          apply hz x (List.mem_cons_self _ _)
          intro h; subst h
          exact (List.nodup_cons.mp hl).1 hi'
        rw [hx0, ih (List.nodup_cons.mp hl).2 hi'
          (fun k hk hne => hz k (List.mem_cons_of_mem _ hk) hne)]
        ring

lemma listMapSum_filter_of_zero_off {β : Type} (f : β → ℚ) (q : β → Bool) (l : List β)
    (h : ∀ k ∈ l, q k = false → f k = 0) :
    ((l.filter q).map f).sum = (l.map f).sum := by
  induction l with
  | nil => simp
  | cons x xs ih =>
      by_cases hq : q x = true
      · simp only [List.filter_cons, hq, if_true, List.map_cons, List.sum_cons]
        rw [ih (fun k hk => h k (List.mem_cons_of_mem x hk))]
      · simp only [Bool.not_eq_true] at hq
        simp only [List.filter_cons, hq, Bool.false_eq_true, if_false,
          List.map_cons, List.sum_cons]
        rw [h x (List.mem_cons_self x xs) hq,
          ih (fun k hk => h k (List.mem_cons_of_mem x hk))]
        ring

lemma restMass_nonneg (n : ℕ) (valid : Fin n → Bool) (c : Fin n → ℚ)
    (cols : List (Fin n)) (hc : ∀ k, 0 ≤ c k) : 0 ≤ restMass n valid c cols :=
  listMapSum_nonneg c _ (fun k _ => hc k)

lemma restMass_cons (n : ℕ) (valid : Fin n → Bool) (c : Fin n → ℚ)
    (j : Fin n) (cols : List (Fin n)) :
    restMass n valid c (j :: cols) =
      (if valid j then c j else 0) + restMass n valid c cols := by
  unfold restMass
  by_cases hv : valid j = true
  · simp [List.filter_cons, hv]
  · simp only [Bool.not_eq_true] at hv
    simp [List.filter_cons, hv]

lemma restMass_update_not_mem (n : ℕ) (valid : Fin n → Bool) (c : Fin n → ℚ)
    (cols : List (Fin n)) (j : Fin n) (x : ℚ) (hj : j ∉ cols) :
    restMass n valid (Function.update c j x) cols = restMass n valid c cols := by
  unfold restMass
  congr 1
  apply List.map_congr_left
  intro k hk
  have hkj : k ≠ j := fun h => hj (h ▸ List.mem_of_mem_filter hk)
  simp [Function.update_apply, hkj]

lemma cellAlloc_bounds (n : ℕ) (score : Fin n → ℚ) (valid : Fin n → Bool)
    (j : Fin n) (r : ℚ) (c : Fin n → ℚ) (cols : List (Fin n))
    (hr : 0 ≤ r) (hc : ∀ k, 0 ≤ c k)
    (hfeas : r ≤ restMass n valid c (j :: cols)) :
    0 ≤ cellAlloc n score valid j r c cols ∧
    cellAlloc n score valid j r c cols ≤ r ∧
    cellAlloc n score valid j r c cols ≤ c j ∧
    r - cellAlloc n score valid j r c cols ≤ restMass n valid c cols := by
  have hrest0 : 0 ≤ restMass n valid c cols := restMass_nonneg n valid c cols hc
  by_cases hv : valid j = true
  · have hfeas' : r ≤ c j + restMass n valid c cols := by
      rw [restMass_cons, if_pos hv] at hfeas
      linarith
    unfold cellAlloc
    rw [if_pos hv]
    set L := max 0 (r - restMass n valid c cols) with hL
    set U := min r (c j) with hU
    have hL0 : 0 ≤ L := le_max_left _ _
    have hLU : L ≤ U := max_le (le_min hr (hc j)) (le_min (by linarith) (by linarith))
    have ht0 := squash_nonneg (score j)
    have ht1 := squash_le_one (score j)
    have hmul0 : 0 ≤ squash (score j) * (U - L) := mul_nonneg ht0 (by linarith)
    have hmul1 : squash (score j) * (U - L) ≤ U - L := by nlinarith
    have hUr : U ≤ r := min_le_left _ _
    have hUc : U ≤ c j := min_le_right _ _
    have hLlower : r - restMass n valid c cols ≤ L := le_max_right _ _
    refine ⟨by linarith, by linarith, by linarith, by linarith⟩
  · simp only [Bool.not_eq_true] at hv
    have hmask : restMass n valid c (j :: cols) = restMass n valid c cols := by
      rw [restMass_cons]
      simp [hv]
    rw [hmask] at hfeas
    unfold cellAlloc
    rw [if_neg (by simp [hv])]
    exact ⟨le_refl 0, hr, hc j, by linarith⟩

lemma rowAlloc_cons (n : ℕ) (s : Fin n → ℚ) (val : Fin n → Bool)
    (j : Fin n) (cols : List (Fin n)) (r : ℚ) (c : Fin n → ℚ) :
    rowAlloc n s val (j :: cols) r c =
      (Function.update
        (rowAlloc n s val cols (r - cellAlloc n s val j r c cols)
          (Function.update c j (c j - cellAlloc n s val j r c cols))).1
        j (cellAlloc n s val j r c cols),
       (rowAlloc n s val cols (r - cellAlloc n s val j r c cols)
          (Function.update c j (c j - cellAlloc n s val j r c cols))).2) := rfl

lemma rowAlloc_fst_not_mem (n : ℕ) (s : Fin n → ℚ) (val : Fin n → Bool) (k : Fin n) :
    ∀ (cols : List (Fin n)) (r : ℚ) (c : Fin n → ℚ), k ∉ cols →
      (rowAlloc n s val cols r c).1 k = 0 := by
  intro cols
  induction cols with
  | nil => intro r c _; rfl
  | cons j cols ih =>
      intro r c hk
      have hkj : k ≠ j := fun h => hk (h ▸ List.mem_cons_self j cols)
      have hkc : k ∉ cols := fun h => hk (List.mem_cons_of_mem j h)
      rw [rowAlloc_cons]
      simp only [Function.update_apply, if_neg hkj]
      exact ih _ _ hkc

lemma rowAlloc_fst_invalid (n : ℕ) (s : Fin n → ℚ) (val : Fin n → Bool) (k : Fin n)
    (hvk : val k = false) :
    ∀ (cols : List (Fin n)) (r : ℚ) (c : Fin n → ℚ),
      (rowAlloc n s val cols r c).1 k = 0 := by
  intro cols
  induction cols with
  | nil => intro r c; rfl
  | cons j cols ih =>
      intro r c
      rw [rowAlloc_cons]
      simp only [Function.update_apply]
      by_cases hkj : k = j
      · subst hkj
        rw [if_pos rfl]
        unfold cellAlloc
        rw [if_neg (by simp [hvk])]
      · rw [if_neg hkj]
        exact ih _ _

lemma rowAlloc_snd_eq (n : ℕ) (s : Fin n → ℚ) (val : Fin n → Bool) :
    ∀ (cols : List (Fin n)) (r : ℚ) (c : Fin n → ℚ), cols.Nodup →
      ∀ k, (rowAlloc n s val cols r c).2 k = c k - (rowAlloc n s val cols r c).1 k := by
  intro cols
  induction cols with
  | nil => intro r c _ k; simp [rowAlloc]
  | cons j cols ih =>
      intro r c hnd k
      have hj : j ∉ cols := (List.nodup_cons.mp hnd).1
      have hnd' : cols.Nodup := (List.nodup_cons.mp hnd).2
      rw [rowAlloc_cons]
      simp only
      by_cases hkj : k = j
      · subst hkj
        rw [ih _ _ hnd' k]
        rw [rowAlloc_fst_not_mem n s val k cols _ _ hj]
        simp [Function.update_apply]
      · rw [ih _ _ hnd' k]
        simp [Function.update_apply, hkj]

lemma rowAlloc_main (n : ℕ) (s : Fin n → ℚ) (val : Fin n → Bool) :
    ∀ (cols : List (Fin n)) (r : ℚ) (c : Fin n → ℚ),
      cols.Nodup → 0 ≤ r → (∀ k, 0 ≤ c k) → r ≤ restMass n val c cols →
      (∀ k, 0 ≤ (rowAlloc n s val cols r c).1 k) ∧
      (∀ k, (rowAlloc n s val cols r c).1 k ≤ c k) ∧
      (cols.map (rowAlloc n s val cols r c).1).sum = r := by
  intro cols
  induction cols with
  | nil =>
      intro r c _ hr hc hfeas
      have hr0 : r = 0 := by
        have : restMass n val c [] = 0 := by simp [restMass]
        rw [this] at hfeas
        linarith
      refine ⟨fun k => le_refl 0, fun k => hc k, ?_⟩
      simp [rowAlloc, hr0]
  | cons j cols ih =>
      intro r c hnd hr hc hfeas
      have hj : j ∉ cols := (List.nodup_cons.mp hnd).1
      have hnd' : cols.Nodup := (List.nodup_cons.mp hnd).2
      obtain ⟨hv0, hvr, hvc, hvrest⟩ :=
        cellAlloc_bounds n s val j r c cols hr hc hfeas
      set v := cellAlloc n s val j r c cols with hvdef
      have hc' : ∀ k, 0 ≤ Function.update c j (c j - v) k := by
        intro k
        by_cases hkj : k = j
        · subst hkj; simp [Function.update_apply]; linarith
        · simp [Function.update_apply, hkj]; exact hc k
      have hfeas' : r - v ≤ restMass n val (Function.update c j (c j - v)) cols := by
        rw [restMass_update_not_mem n val c cols j _ hj]
        exact hvrest
      obtain ⟨iha, ihb, ihc⟩ := ih (r - v) (Function.update c j (c j - v)) hnd'
        (by linarith) hc' hfeas'
      refine ⟨?_, ?_, ?_⟩
      · intro k
        rw [rowAlloc_cons]
        simp only [Function.update_apply]
        by_cases hkj : k = j
        · rw [if_pos hkj]; exact hv0
        · rw [if_neg hkj]; exact iha k
      · intro k
        rw [rowAlloc_cons]
        simp only [Function.update_apply]
        by_cases hkj : k = j
        · subst hkj; rw [if_pos rfl]; exact hvc
        · rw [if_neg hkj]
          have := ihb k
          rw [Function.update_apply, if_neg hkj] at this
          exact this
      · rw [rowAlloc_cons]
        simp only [List.map_cons, List.sum_cons, Function.update_same]
        have hcongr : cols.map (Function.update
            (rowAlloc n s val cols (r - v) (Function.update c j (c j - v))).1 j v) =
            cols.map (rowAlloc n s val cols (r - v) (Function.update c j (c j - v))).1 := by
          apply List.map_congr_left
          intro k hk
          have hkj : k ≠ j := fun h => hj (h ▸ hk)
          simp [Function.update_apply, hkj]
        rw [hcongr, ihc]
        ring

lemma eyeMask_content_row (n : ℕ) (m : Fin n → Bool) (i : Fin n)
    (hm : m i = true) (k : Fin n) : eyeMask n m i k = m k := by
  unfold eyeMask
  by_cases hk : i = k
  · subst hk; simp [hm]
  · have hbeq : (i == k) = false := beq_false_of_ne hk
    simp [hm, hbeq]

lemma eyeMask_pad_row (n : ℕ) (m : Fin n → Bool) (i : Fin n)
    (hm : m i = false) (k : Fin n) : eyeMask n m i k = (i == k) := by
  unfold eyeMask
  simp [hm]

lemma eyeMask_pad_col (n : ℕ) (m : Fin n → Bool) (i k : Fin n)
    (hm : m i = false) (hk : k ≠ i) : eyeMask n m k i = false := by
  unfold eyeMask
  have hbeq : (k == i) = false := beq_false_of_ne hk
  simp [hm, hbeq]

lemma eyeMask_diag (n : ℕ) (m : Fin n → Bool) (i : Fin n) :
    eyeMask n m i i = true := by
  unfold eyeMask
  simp

lemma listFilter_congr {β : Type} (p q : β → Bool) (l : List β)
    (h : ∀ a ∈ l, p a = q a) : l.filter p = l.filter q := by
  induction l with
  | nil => rfl
  | cons x xs ih =>
      have hx := h x (List.mem_cons_self x xs)
      have ih' := ih (fun a ha => h a (List.mem_cons_of_mem x ha))
      simp only [List.filter_cons, hx, ih']

lemma restMass_congr (n : ℕ) (val val' : Fin n → Bool) (c : Fin n → ℚ)
    (cols : List (Fin n)) (h : ∀ k, val k = val' k) :
    restMass n val c cols = restMass n val' c cols := by
  unfold restMass
  rw [listFilter_congr _ _ cols (fun a _ => h a)]

lemma listFilter_beq_not_mem {β : Type} [DecidableEq β] (i : β) (l : List β)
    (hi : i ∉ l) : (l.filter fun k => i == k) = [] := by
  induction l with
  | nil => rfl
  | cons x xs ih =>
      have hix : i ≠ x := fun h => hi (h ▸ List.mem_cons_self x xs)
      have hbeq : (i == x) = false := beq_false_of_ne hix
      simp only [List.filter_cons, hbeq, Bool.false_eq_true, if_false]
      exact ih (fun h => hi (List.mem_cons_of_mem x h))

lemma listFilter_beq_singleton {β : Type} [DecidableEq β] (i : β) (l : List β)
    (hl : l.Nodup) (hi : i ∈ l) : (l.filter fun k => i == k) = [i] := by
  induction l with
  | nil => simp at hi
  | cons x xs ih =>
      rcases List.mem_cons.mp hi with rfl | hi'
      · simp only [List.filter_cons, beq_self_eq_true, if_true]
        rw [listFilter_beq_not_mem i xs (List.nodup_cons.mp hl).1]
      · have hix : i ≠ x := fun h => (List.nodup_cons.mp hl).1 (h ▸ hi')
        have hbeq : (i == x) = false := beq_false_of_ne hix
        simp only [List.filter_cons, hbeq, Bool.false_eq_true, if_false]
        exact ih (List.nodup_cons.mp hl).2 hi'

lemma allRows_cons (n : ℕ) (score : Fin n → Fin n → ℚ) (M : Fin n → Fin n → Bool)
    (i : Fin n) (rows : List (Fin n)) (c : Fin n → ℚ) :
    allRows n score M (i :: rows) c =
      (Function.update
        (allRows n score M rows (rowAlloc n (score i) (M i) (List.finRange n) 1 c).2).1
        i (rowAlloc n (score i) (M i) (List.finRange n) 1 c).1,
       (allRows n score M rows (rowAlloc n (score i) (M i) (List.finRange n) 1 c).2).2) := rfl

lemma allRows_snd_eq (n : ℕ) (score : Fin n → Fin n → ℚ) (M : Fin n → Fin n → Bool) :
    ∀ (rows : List (Fin n)) (c : Fin n → ℚ), rows.Nodup → ∀ k,
      (allRows n score M rows c).2 k =
        c k - (rows.map fun i => (allRows n score M rows c).1 i k).sum := by
  intro rows
  induction rows with
  | nil => intro c _ k; simp [allRows]
  | cons i rows ih =>
      intro c hnd k
      have hi : i ∉ rows := (List.nodup_cons.mp hnd).1
      have hnd' : rows.Nodup := (List.nodup_cons.mp hnd).2
      rw [allRows_cons]
      simp only [List.map_cons, List.sum_cons, Function.update_same]
      have hcongr : rows.map (fun i' => Function.update
          (allRows n score M rows (rowAlloc n (score i) (M i) (List.finRange n) 1 c).2).1
          i (rowAlloc n (score i) (M i) (List.finRange n) 1 c).1 i' k) =
          rows.map (fun i' => (allRows n score M rows
            (rowAlloc n (score i) (M i) (List.finRange n) 1 c).2).1 i' k) := by
        apply List.map_congr_left
        intro i' hi'
        have : i' ≠ i := fun h => hi (h ▸ hi')
        simp [Function.update_apply, this]
      rw [hcongr, ih _ hnd' k,
        rowAlloc_snd_eq n (score i) (M i) (List.finRange n) 1 c (List.nodup_finRange n) k]
      ring

lemma allRows_invariant (n : ℕ) (score : Fin n → Fin n → ℚ) (m : Fin n → Bool) :
    ∀ (rows : List (Fin n)) (c : Fin n → ℚ),
      rows.Nodup →
      (∀ k, m k = false → c k = (if k ∈ rows then 1 else 0)) →
      (∀ k, 0 ≤ c k) →
      ((((List.finRange n).filter fun k => m k).map c).sum =
        ((rows.filter fun i => m i).length : ℚ)) →
      (∀ k, (allRows n score (eyeMask n m) rows c).2 k = 0) ∧
      (∀ i ∈ rows,
        ((List.finRange n).map ((allRows n score (eyeMask n m) rows c).1 i)).sum = 1) ∧
      (∀ i k, 0 ≤ (allRows n score (eyeMask n m) rows c).1 i k) ∧
      (∀ i k, eyeMask n m i k = false →
        (allRows n score (eyeMask n m) rows c).1 i k = 0) ∧
      (∀ i ∈ rows, m i = false →
        (allRows n score (eyeMask n m) rows c).1 i i = 1 ∧
        ∀ k, k ≠ i → (allRows n score (eyeMask n m) rows c).1 i k = 0) := by
  intro rows
  induction rows with
  | nil =>
      intro c _ h1 h2 h3
      have hzero : ∀ k, c k = 0 := by
        intro k
        by_cases hm : m k = true
        · have hmem : k ∈ (List.finRange n).filter fun k => m k := by
            rw [List.mem_filter]
            exact ⟨List.mem_finRange k, hm⟩
          exact listMapSum_eq_zero c _ (fun k _ => h2 k) (by simpa using h3) k hmem
        · simp only [Bool.not_eq_true] at hm
          simpa using h1 k hm
      refine ⟨fun k => by simp [allRows, hzero k], fun i hi => by simp at hi,
        fun i k => by simp [allRows], fun i k _ => by simp [allRows],
        fun i hi => by simp at hi⟩
  | cons i rows ih =>
      intro c hnd h1 h2 h3
      have hi : i ∉ rows := (List.nodup_cons.mp hnd).1
      have hnd' : rows.Nodup := (List.nodup_cons.mp hnd).2
      have hfeas : (1 : ℚ) ≤ restMass n (eyeMask n m i) c (List.finRange n) := by
        by_cases hmi : m i = true
        · rw [restMass_congr n (eyeMask n m i) m c (List.finRange n)
            (eyeMask_content_row n m i hmi)]
          unfold restMass
          rw [h3]
          have hfc : (i :: rows).filter (fun i' => m i') =
              i :: rows.filter (fun i' => m i') := by
            simp [List.filter_cons, hmi]
          rw [hfc]
          simp only [List.length_cons]
          push_cast
          have hnn : (0:ℚ) ≤ ((rows.filter fun i' => m i').length : ℚ) := Nat.cast_nonneg _
          linarith
        · simp only [Bool.not_eq_true] at hmi
          rw [restMass_congr n (eyeMask n m i) (fun k => i == k) c (List.finRange n)
            (eyeMask_pad_row n m i hmi)]
          unfold restMass
          rw [listFilter_beq_singleton i (List.finRange n) (List.nodup_finRange n)
            (List.mem_finRange i)]
          have hci : c i = 1 := by simpa using h1 i hmi
          simp [hci]
      obtain ⟨hra, hrb, hrc⟩ := rowAlloc_main n (score i) (eyeMask n m i)
        (List.finRange n) 1 c (List.nodup_finRange n) (by norm_num) h2 hfeas
      have hrow2 : ∀ k, (rowAlloc n (score i) (eyeMask n m i) (List.finRange n) 1 c).2 k =
          c k - (rowAlloc n (score i) (eyeMask n m i) (List.finRange n) 1 c).1 k :=
        fun k => rowAlloc_snd_eq n (score i) (eyeMask n m i) (List.finRange n) 1 c
          (List.nodup_finRange n) k
      have hF1 : ∀ k, eyeMask n m i k = false →
          (rowAlloc n (score i) (eyeMask n m i) (List.finRange n) 1 c).1 k = 0 :=
        fun k hk => rowAlloc_fst_invalid n (score i) (eyeMask n m i) k hk (List.finRange n) 1 c
      have hF2 : ∀ k, m k = false → k ≠ i →
          (rowAlloc n (score i) (eyeMask n m i) (List.finRange n) 1 c).1 k = 0 := by
        intro k hmk hki
        apply hF1
        by_cases hmi : m i = true
        · rw [eyeMask_content_row n m i hmi k]; exact hmk
        · simp only [Bool.not_eq_true] at hmi
          rw [eyeMask_pad_row n m i hmi k]
          exact beq_false_of_ne (fun h => hki h.symm)
      have hF3 : m i = false →
          ((rowAlloc n (score i) (eyeMask n m i) (List.finRange n) 1 c).1 i = 1 ∧
          ∀ k, k ≠ i → (rowAlloc n (score i) (eyeMask n m i) (List.finRange n) 1 c).1 k = 0) := by
        intro hmi
        have hoff : ∀ k, k ≠ i →
            (rowAlloc n (score i) (eyeMask n m i) (List.finRange n) 1 c).1 k = 0 := by
          intro k hk
          apply hF1
          rw [eyeMask_pad_row n m i hmi k]
          exact beq_false_of_ne (fun h => hk h.symm)
        have hsingle := listMapSum_single
          (rowAlloc n (score i) (eyeMask n m i) (List.finRange n) 1 c).1 (List.finRange n) i
          (List.nodup_finRange n) (List.mem_finRange i) (fun k _ hk => hoff k hk)
        exact ⟨hsingle.symm.trans hrc, hoff⟩
      have hF4 : (((List.finRange n).filter fun k => m k).map
          (rowAlloc n (score i) (eyeMask n m i) (List.finRange n) 1 c).1).sum =
          (if m i = true then (1:ℚ) else 0) := by
        by_cases hmi : m i = true
        · rw [if_pos hmi]
          have hzoff : ∀ k ∈ List.finRange n, m k = false →
              (rowAlloc n (score i) (eyeMask n m i) (List.finRange n) 1 c).1 k = 0 := by
            intro k _ hk
            have hki : k ≠ i := by
              intro h; subst h; rw [hmi] at hk; exact Bool.noConfusion hk
            exact hF2 k hk hki
          rw [listMapSum_filter_of_zero_off _ _ _ hzoff]
          exact hrc
        · rw [if_neg hmi]
          simp only [Bool.not_eq_true] at hmi
          have hz : ∀ k ∈ (List.finRange n).filter (fun k => m k),
              (rowAlloc n (score i) (eyeMask n m i) (List.finRange n) 1 c).1 k = 0 := by
            intro k hk
            have hmk : m k = true := (List.mem_filter.mp hk).2
            have hki : k ≠ i := by
              intro h; subst h; rw [hmi] at hmk; exact Bool.noConfusion hmk
            exact (hF3 hmi).2 k hki
          rw [List.map_congr_left hz]
          simp
      have hH2' : ∀ k, 0 ≤ (rowAlloc n (score i) (eyeMask n m i) (List.finRange n) 1 c).2 k := by
        intro k
        rw [hrow2 k]
        have := hrb k
        linarith
      have hH1' : ∀ k, m k = false →
          (rowAlloc n (score i) (eyeMask n m i) (List.finRange n) 1 c).2 k =
            (if k ∈ rows then 1 else 0) := by
        intro k hmk
        rw [hrow2 k]
        by_cases hki : k = i
        · subst hki
          have hci : c k = 1 := by simpa using h1 k hmk
          have hri : (rowAlloc n (score k) (eyeMask n m k) (List.finRange n) 1 c).1 k = 1 :=
            (hF3 hmk).1
          rw [hci, hri]
          simp [hi]
        · have hr0 : (rowAlloc n (score i) (eyeMask n m i) (List.finRange n) 1 c).1 k = 0 :=
            hF2 k hmk hki
          have hck : c k = (if k ∈ i :: rows then 1 else 0) := h1 k hmk
          rw [hr0, hck]
          by_cases hk2 : k ∈ rows
          · simp [hk2, List.mem_cons, hki]
          · simp [hk2, List.mem_cons, hki]
      have hH3' : (((List.finRange n).filter fun k => m k).map
          (rowAlloc n (score i) (eyeMask n m i) (List.finRange n) 1 c).2).sum =
          ((rows.filter fun i' => m i').length : ℚ) := by
        rw [List.map_congr_left (fun k _ => hrow2 k), listMapSum_sub, h3, hF4]
        by_cases hmi : m i = true
        · rw [if_pos hmi]
          have hfc : (i :: rows).filter (fun i' => m i') =
              i :: rows.filter (fun i' => m i') := by
            simp [List.filter_cons, hmi]
          rw [hfc]
          simp only [List.length_cons]
          push_cast
          ring
        · rw [if_neg hmi]
          simp only [Bool.not_eq_true] at hmi
          have hfc : (i :: rows).filter (fun i' => m i') = rows.filter (fun i' => m i') := by
            simp [List.filter_cons, hmi]
          rw [hfc]
          ring
      obtain ⟨ia, ib, ic, id2, ie⟩ := ih
        (rowAlloc n (score i) (eyeMask n m i) (List.finRange n) 1 c).2 hnd' hH1' hH2' hH3'
      have hfst : (allRows n score (eyeMask n m) (i :: rows) c).1 =
          Function.update (allRows n score (eyeMask n m) rows
            (rowAlloc n (score i) (eyeMask n m i) (List.finRange n) 1 c).2).1
            i (rowAlloc n (score i) (eyeMask n m i) (List.finRange n) 1 c).1 := rfl
      have hsnd : (allRows n score (eyeMask n m) (i :: rows) c).2 =
          (allRows n score (eyeMask n m) rows
            (rowAlloc n (score i) (eyeMask n m i) (List.finRange n) 1 c).2).2 := rfl
      refine ⟨?_, ?_, ?_, ?_, ?_⟩
      · intro k
        rw [hsnd]
        exact ia k
      · intro i' hi'
        rw [hfst]
        rcases List.mem_cons.mp hi' with rfl | hmem
        · rw [Function.update_same]
          exact hrc
        · have hne : i' ≠ i := fun h => hi (h ▸ hmem)
          rw [Function.update_apply, if_neg hne]
          exact ib i' hmem
      · intro i' k
        rw [hfst, Function.update_apply]
        by_cases hne : i' = i
        · rw [if_pos hne]
          exact hra k
        · rw [if_neg hne]
          exact ic i' k
      · intro i' k hmask
        rw [hfst, Function.update_apply]
        by_cases hne : i' = i
        · rw [if_pos hne]
          subst hne
          exact hF1 k hmask
        · rw [if_neg hne]
          exact id2 i' k hmask
      · intro i' hi' hmi'
        rw [hfst]
        rcases List.mem_cons.mp hi' with rfl | hmem
        · rw [Function.update_same]
          exact hF3 hmi'
        · have hne : i' ≠ i := fun h => hi (h ▸ hmem)
          rw [Function.update_apply, if_neg hne]
          exact ie i' hmem hmi'

lemma stick_breaking_core (n : ℕ) (score : Fin n → Fin n → ℚ) (m : Fin n → Bool) :
    (∀ i, rowSum n (stick_breaking n score (eyeMask n m) i) = 1) ∧
    (∀ k, colSum n (stick_breaking n score (eyeMask n m)) k = 1) ∧
    (∀ i k, 0 ≤ stick_breaking n score (eyeMask n m) i k) ∧
    (∀ i k, eyeMask n m i k = false → stick_breaking n score (eyeMask n m) i k = 0) ∧
    (∀ i, m i = false → stick_breaking n score (eyeMask n m) i i = 1 ∧
      ∀ k, k ≠ i → stick_breaking n score (eyeMask n m) i k = 0) := by
  obtain ⟨ha, hb, hc, hd, he⟩ := allRows_invariant n score m (List.finRange n) (fun _ => 1)
    (List.nodup_finRange n)
    (by intro k _; simp [List.mem_finRange])
    (fun k => by norm_num)
    (by rw [listMapSum_const_one])
  refine ⟨fun i => hb i (List.mem_finRange i), ?_, hc, hd,
    fun i hmi => he i (List.mem_finRange i) hmi⟩
  intro k
  have hsnd := allRows_snd_eq n score (eyeMask n m) (List.finRange n) (fun _ => 1)
    (List.nodup_finRange n) k
  rw [ha k] at hsnd
  unfold colSum stick_breaking
  linarith [hsnd]

/-- C2: for every score matrix and padding mask, the stick-breaking
normalization applied to the mask built by `PermutationLayer.call`
produces a matrix whose every row and column sums to 1 (so certainly
within the spec's `1e-5` tolerance), whose entries are nonnegative, and
whose masked-invalid cells are exactly 0. -/
theorem stick_breaking_doubly_stochastic (n : ℕ) (score : Fin n → Fin n → ℚ)
    (m : Fin n → Bool) :
    (∀ i, |rowSum n (stick_breaking n score (eyeMask n m) i) - 1| ≤ 1 / 100000) ∧
    (∀ k, |colSum n (stick_breaking n score (eyeMask n m)) k - 1| ≤ 1 / 100000) ∧
    (∀ i k, eyeMask n m i k = false → stick_breaking n score (eyeMask n m) i k = 0) ∧
    (∀ i, rowSum n (stick_breaking n score (eyeMask n m) i) = 1) ∧
    (∀ k, colSum n (stick_breaking n score (eyeMask n m)) k = 1) ∧
    (∀ i k, 0 ≤ stick_breaking n score (eyeMask n m) i k) := by
  obtain ⟨hrow, hcol, hpos, hmask, _⟩ := stick_breaking_core n score m
  refine ⟨?_, ?_, hmask, hrow, hcol, hpos⟩
  · intro i
    rw [hrow i]
    norm_num
  · intro k
    rw [hcol k]
    norm_num

/-- Witness for C2 at `n = 2` with the second token padded: row sums
are within tolerance and the masked cell `(0, 1)` is exactly 0. -/
theorem stick_breaking_doubly_stochastic_witness :
    |rowSum 2 (stick_breaking 2 (fun _ _ => 0)
      (eyeMask 2 (fun k => decide (k.val = 0))) 0) - 1| ≤ 1 / 100000 ∧
    stick_breaking 2 (fun _ _ => 0) (eyeMask 2 (fun k => decide (k.val = 0))) 0 1 = 0 := by
  have h := stick_breaking_doubly_stochastic 2 (fun _ _ => 0) (fun k => decide (k.val = 0))
  exact ⟨h.1 0, h.2.2.1 0 1 (by decide)⟩

/-- C3: the mask handed to stick breaking marks every diagonal entry
valid (it is the OR of the pairwise-valid mask with the identity), and
for every padded row the output matrix carries the identity sub-block:
the pad row and the pad column are the corresponding identity row and
column, while the full matrix still has all row and column sums equal
to 1; pad tokens are never reordered. -/
theorem stick_breaking_pad_identity (n : ℕ) (score : Fin n → Fin n → ℚ)
    (m : Fin n → Bool) :
    (∀ i, eyeMask n m i i = true) ∧
    (∀ i j, eyeMask n m i j = ((m i && m j) || (i == j))) ∧
    (∀ i, m i = false →
      stick_breaking n score (eyeMask n m) i i = 1 ∧
      (∀ k, k ≠ i → stick_breaking n score (eyeMask n m) i k = 0 ∧
        stick_breaking n score (eyeMask n m) k i = 0)) ∧
    (∀ i, rowSum n (stick_breaking n score (eyeMask n m) i) = 1) ∧
    (∀ k, colSum n (stick_breaking n score (eyeMask n m)) k = 1) := by
  obtain ⟨hrow, hcol, _, hmask, hpad⟩ := stick_breaking_core n score m
  refine ⟨eyeMask_diag n m, fun i j => rfl, ?_, hrow, hcol⟩
  intro i hmi
  refine ⟨(hpad i hmi).1, ?_⟩
  intro k hk
  exact ⟨(hpad i hmi).2 k hk, hmask k i (eyeMask_pad_col n m i k hmi hk)⟩

/-- Witness for C3 at `n = 2` with the second token padded: the padded
row and column form the identity sub-block. -/
theorem stick_breaking_pad_identity_witness :
    stick_breaking 2 (fun _ _ => 0) (eyeMask 2 (fun k => decide (k.val = 0))) 1 1 = 1 ∧
    stick_breaking 2 (fun _ _ => 0) (eyeMask 2 (fun k => decide (k.val = 0))) 1 0 = 0 ∧
    stick_breaking 2 (fun _ _ => 0) (eyeMask 2 (fun k => decide (k.val = 0))) 0 1 = 0 := by
  have h := stick_breaking_pad_identity 2 (fun _ _ => 0) (fun k => decide (k.val = 0))
  have h1 := h.2.2.1 1 (by decide)
  exact ⟨h1.1, (h1.2 0 (by decide)).1, (h1.2 0 (by decide)).2⟩
